import Mathlib

/-!
Shallow embedding of the osprey log scanner (main.go): incremental log
scanning with a persisted per-source line anchor, findings wrapped as issue
requests, and a ticker-driven worker pool.  File contents are modelled as
`List Char` (Go strings / byte slices), files as a small state type, and
fallible or panicking code paths as explicit result constructors.
-/

/-- Model of Go `strings.Split(s, sep)` for a one-character separator:
always returns `numberOfSeparators + 1` segments. -/
def splitOnChar (sep : Char) : List Char → List (List Char)
  | [] => [[]]
  | c :: cs =>
    let r := splitOnChar sep cs
    if c = sep then [] :: r
    else (c :: r.headD []) :: r.tail

/-- Model of `strings.Split(dat, "\n")` as used by `scanFile`. -/
def splitNl (s : List Char) : List (List Char) := splitOnChar '\n' s

/-- Model of Go `strings.Join(xs, "\n")`. -/
def joinNl : List (List Char) → List Char
  | [] => []
  | [x] => x
  | x :: xs => x ++ '\n' :: joinNl xs

/-- Model of `dropCR` inside `bufio.ScanLines`: strips one trailing
carriage return from a token. -/
def dropCR (l : List Char) : List Char :=
  if l.getLast? = some '\r' then l.dropLast else l

/-- Token stream of a `bufio.Scanner` with the default `ScanLines` split
over input `s`: tokens are the newline-separated segments; a final empty
segment (trailing newline, or empty input) yields no token, while a
nonempty final segment without a newline IS returned as a token; every
token has one trailing carriage return dropped. -/
def scanTokens (s : List Char) : List (List Char) :=
  let ts := splitNl s
  (if ts.getLast? = some [] then ts.dropLast else ts).map dropCR

/-- Decimal value of one character, as in the core loop of
`strconv.Atoi` (`ch - '0'` with a 0..9 range check). -/
def digitVal? (c : Char) : Option ℕ :=
  if '0' ≤ c ∧ c ≤ '9' then some (c.toNat - 48) else none

/-- Accumulating decimal parse loop of `strconv.Atoi`:
`n = n*10 + digit` per character, failing on any non-digit. -/
def digitsValFrom (acc : ℕ) : List Char → Option ℕ
  | [] => some acc
  | c :: rest =>
    match digitVal? c with
    | none => none
    | some d => digitsValFrom (acc * 10 + d) rest

/-- Decimal parse of a full digit string; the empty string is a syntax
error, as in `strconv.Atoi`. -/
def digitsVal (cs : List Char) : Option ℕ :=
  if cs.isEmpty then none else digitsValFrom 0 cs

/-- Model of Go `strconv.Atoi`: optional sign followed by decimal digits
(arbitrary precision; overflow is irrelevant to the claims). -/
def atoi (cs : List Char) : Option Int :=
  match cs with
  | [] => none
  | c :: rest =>
    if c = '+' then (digitsVal rest).map (fun m => (m : Int))
    else if c = '-' then (digitsVal rest).map (fun m => -(m : Int))
    else (digitsVal (c :: rest)).map (fun m => (m : Int))

/-- Character of one decimal digit. -/
def digitChar (d : ℕ) : Char := Char.ofNat (48 + d)

/-- Fuel-indexed decimal printer (most significant digit first); the fuel
only serves structural recursion and is always sufficient at use sites. -/
def natDigitsF : ℕ → ℕ → List Char
  | 0, _ => []
  | fuel + 1, n =>
    if n < 10 then [digitChar n]
    else natDigitsF fuel (n / 10) ++ [digitChar (n % 10)]

/-- Decimal digits of a natural number. -/
def natDigits (n : ℕ) : List Char := natDigitsF (n + 1) n

/-- Model of Go `fmt.Sprintf("%d", n)` for a (signed) int. -/
def intChars (n : Int) : List Char :=
  if n < 0 then '-' :: natDigits n.natAbs else natDigits n.toNat

/-- The `defaultErrorKeyword` constant (`"error"`). -/
def errKw : List Char := "error".toList

/-- Model of Go `strings.Contains(hay, needle)`: the needle occurs as a
contiguous substring of the haystack. -/
def containsSub (needle : List Char) : List Char → Bool
  | [] => needle.isEmpty
  | c :: rest => needle.isPrefixOf (c :: rest) || containsSub needle rest

/-- Model of `title(serviceName)`: `fmt.Sprintf("%s-bug-%s", name, ts)`
with the wall-clock timestamp abstracted as a parameter. -/
def title (serviceName now : List Char) : List Char :=
  serviceName ++ "-bug-".toList ++ now

/-- A `github.IssueRequest` as built by `scanFile`: title and body. -/
structure Issue where
  ititle : List Char
  body : List Char
deriving DecidableEq, Repr

/-- State of one file on disk: missing, present with content, or
inaccessible (permission-style I/O failure). -/
inductive FileSt where
  | absent
  | denied
  | present (content : List Char)
deriving DecidableEq, Repr

/-- Outcome of `extract(line)`: the Go function returns `(int, error)` and
can also panic on `tks[1]` when the line has no separator. -/
inductive ExtractRes where
  | panicked
  | failed
  | ok (a : Int)
deriving DecidableEq, Repr

/-- Model of `extract`: split the line on `:`; the `len(tks) == 0` branch
is kept from the source although `strings.Split` never returns an empty
slice; `tks[1]` panics when absent; then `strconv.Atoi`. -/
def extract (line : List Char) : ExtractRes :=
  let tks := splitOnChar ':' line
  if tks.length = 0 then .ok 0
  else
    match tks.get? 1 with
    | none => .panicked
    | some t =>
      match atoi t with
      | none => .failed
      | some a => .ok a

/-- Outcome of `getAnchor`: error return, panic (from `extract`), or
success carrying the resulting anchor-file state and the anchor value. -/
inductive LoadRes where
  | panicked
  | failed
  | ok (anchorFile : FileSt) (anchor : Int)
deriving DecidableEq, Repr

/-- The read half of `getAnchor`, given the on-disk content `c` of the
anchor file: scan the first line; an empty (or missing) first line leaves
the anchor at its previous value and returns nil; otherwise `extract`. -/
def readAnchorFrom (prev : Int) (c : List Char) : LoadRes :=
  let anchorLine := (scanTokens c).headD []
  if anchorLine = [] then .ok (.present c) prev
  else
    match extract anchorLine with
    | .panicked => .panicked
    | .failed => .failed
    | .ok a => .ok (.present c) a

/-- Model of `getAnchor`.  When the `.igu` file is absent the code creates
it and writes `"last:0\n"` through a `bufio.Writer` that is never flushed,
so the file persisted on disk is EMPTY; the subsequent read then sees an
empty first line.  `prev` is the scanner's current in-memory anchor field
(zero for every fresh scanner value taken off the queue). -/
def getAnchor (prev : Int) (anchorFile : FileSt) : LoadRes :=
  match anchorFile with
  | .denied => .failed
  | .absent => readAnchorFrom prev []
  | .present c => readAnchorFrom prev c

/-- Outcome of `scanFile`: read error, slice-bounds panic, or success with
the new anchor and the issue requests in file order. -/
inductive ScanRes where
  | panicked
  | failed
  | ok (newAnchor : Int) (issues : List Issue)
deriving DecidableEq, Repr

/-- Model of `scanFile`: read the whole log, split on newlines, slice off
the first `anchor` segments (Go `logs[anchor:]` panics when `anchor` is
negative or exceeds the segment count), re-join, and scan the result line
by line, wrapping each line containing the error keyword into an issue
request and advancing `forward` for every token consumed.  The
`fScanner.Err()` check never fires for an in-memory `strings.Reader`. -/
def scanFile (anchor : Int) (logFile : FileSt) (svc now : List Char) : ScanRes :=
  match logFile with
  | .absent => .failed
  | .denied => .failed
  | .present dat =>
    let logs := splitNl dat
    if anchor < 0 ∨ (logs.length : Int) < anchor then .panicked
    else
      let unread := logs.drop anchor.toNat
      let unreadStr := joinNl unread
      let toks := scanTokens unreadStr
      let issues := toks.filterMap fun line =>
        if containsSub errKw line then some ⟨title svc now, line⟩ else none
      .ok (anchor + toks.length) issues

/-- Serialized anchor record, `fmt.Sprintf("last:%d\n", newAnchor)`. -/
def serializeAnchor (n : Int) : List Char :=
  "last:".toList ++ intChars n ++ ['\n']

/-- Model of `setAnchor`: `os.OpenFile(path, O_RDWR|O_CREATE|O_TRUNC)`
followed by a single `WriteString` — an in-place truncate-then-rewrite of
the record file.  `none` models an open failure. -/
def setAnchor (anchorFile : FileSt) (n : Int) : Option FileSt :=
  match anchorFile with
  | .denied => none
  | _ => some (.present (serializeAnchor n))

/-- File states observable if the process crashes around `setAnchor`:
before the call, after the `O_TRUNC` open (record truncated to empty), and
after the write completes. -/
def setAnchorCrashStates (anchorFile : FileSt) (n : Int) : List FileSt :=
  [anchorFile, .present [], .present (serializeAnchor n)]

/-- Outcome of the `scan` method: error return (carrying the resulting
anchor-file state), panic, or success with issues to submit. -/
inductive PipeRes where
  | panicked
  | failed (anchorFile : FileSt)
  | ok (anchorFile : FileSt) (issues : List Issue)
deriving DecidableEq, Repr

/-- Model of the `scan` method: `getAnchor`, then `scanFile`, then
`setAnchor` exactly when the new anchor is strictly greater — all before
the caller ever sees the issues. -/
def scan (anchorFile logFile : FileSt) (svc now : List Char) : PipeRes :=
  match getAnchor 0 anchorFile with
  | .failed => .failed anchorFile
  | .panicked => .panicked
  | .ok af a =>
    match scanFile a logFile svc now with
    | .failed => .failed af
    | .panicked => .panicked
    | .ok newAnchor issues =>
      if a < newAnchor then
        match setAnchor af newAnchor with
        | none => .failed af
        | some af2 => .ok af2 issues
      else .ok af issues

/-- The anchor value a load of the given record state would produce (with
a fresh scanner value, whose in-memory anchor field is zero). -/
def anchorValue (anchorFile : FileSt) : Option Int :=
  match getAnchor 0 anchorFile with
  | .ok _ a => some a
  | _ => none

/-- One configured source as a worker sees it: its anchor-record state,
its log-file state, its service name, and the current timestamp. -/
structure Src where
  af : FileSt
  lf : FileSt
  sname : List Char
  snow : List Char
deriving DecidableEq, Repr

/-- One `Execute` call for one source (the worker body). -/
def executeOne (s : Src) : PipeRes := scan s.af s.lf s.sname s.snow

/-- One cycle over a list of sources.  A returned error is only logged and
the remaining sources are still processed; a runtime panic, by contrast,
kills the whole Go process, so nothing after it runs. -/
def runCycle : List Src → List PipeRes
  | [] => []
  | s :: rest =>
    match executeOne s with
    | .panicked => [.panicked]
    | r => r :: runCycle rest

/-- Observable pipeline events of one `Execute` call, in program order. -/
inductive Ev where
  | loadEv
  | scanEv
  | storeEv (n : Int)
  | submitEv (body : List Char)
deriving DecidableEq, Repr

/-- Event trace of one `Execute` call: `scan` loads the anchor, scans the
file, and persists the new anchor exactly when it is strictly greater (a
failed persist aborts with an error); only then does `Execute` submit the
issue requests one by one. -/
def executeEvents (anchorFile logFile : FileSt) (svc now : List Char) : List Ev :=
  match getAnchor 0 anchorFile with
  | .failed => [.loadEv]
  | .panicked => [.loadEv]
  | .ok af a =>
    .loadEv :: .scanEv ::
      (match scanFile a logFile svc now with
       | .failed => []
       | .panicked => []
       | .ok newAnchor issues =>
         if a < newAnchor then
           match setAnchor af newAnchor with
           | none => [.storeEv newAnchor]
           | some _ => .storeEv newAnchor :: issues.map fun i => Ev.submitEv i.body
         else issues.map fun i => Ev.submitEv i.body)

/-- Every anchor-store event happens after every submission event (the
ordering the specification claims). -/
def submitsBeforeStores (evs : List Ev) : Prop :=
  ∀ i j : ℕ, ∀ n : Int, ∀ b : List Char,
    evs.get? i = some (.storeEv n) → evs.get? j = some (.submitEv b) → j < i

/-- Every anchor-store event happens before every submission event (the
ordering the code implements). -/
def storesBeforeSubmits (evs : List Ev) : Prop :=
  ∀ i j : ℕ, ∀ n : Int, ∀ b : List Char,
    evs.get? i = some (.storeEv n) → evs.get? j = some (.submitEv b) → i < j

/-- A log made of newline-terminated lines followed by a trailing
(possibly empty) unterminated fragment. -/
def mkContent (ls : List (List Char)) (frag : List Char) : List Char :=
  (ls.map fun l => l ++ ['\n']).flatten ++ frag

/-- Scheduler state: total worker goroutines spawned so far, scanner
values sitting in the channel, scanner values the main loop still has to
push this cycle, and workers currently executing a scan. -/
structure Pool where
  spawned : ℕ
  chan : ℕ
  toPush : ℕ
  active : ℕ
deriving DecidableEq, Repr

/-- Transitions of the `main` scheduling loop with `nSrc` configured
sources and pool size `wN` (the channel capacity).  `tick`: the ticker
fires once the previous cycle's pushes are done; the loop body then starts
`wN` FRESH worker goroutines (the `go` statements are inside the ticker
loop; old workers never exit) and begins pushing all `nSrc` scanner
values.  `push`: the main loop sends one value into the channel while it
has spare capacity.  `take`: an idle worker receives a value and starts
executing it.  `finish`: a worker completes an `Execute` call. -/
inductive PoolStep (nSrc wN : ℕ) : Pool → Pool → Prop
  | tick (p : Pool) (h : p.toPush = 0) :
      PoolStep nSrc wN p ⟨p.spawned + wN, p.chan, nSrc, p.active⟩
  | push (p : Pool) (h : 0 < p.toPush) (hc : p.chan < wN) :
      PoolStep nSrc wN p ⟨p.spawned, p.chan + 1, p.toPush - 1, p.active⟩
  | take (p : Pool) (h : 0 < p.chan) (hw : p.active < p.spawned) :
      PoolStep nSrc wN p ⟨p.spawned, p.chan - 1, p.toPush, p.active + 1⟩
  | finish (p : Pool) (h : 0 < p.active) :
      PoolStep nSrc wN p ⟨p.spawned, p.chan, p.toPush, p.active - 1⟩

/-- Reachable scheduler states, from the initial idle state. -/
def poolReach (nSrc wN : ℕ) (p : Pool) : Prop :=
  Relation.ReflTransGen (PoolStep nSrc wN) ⟨0, 0, 0, 0⟩ p

/-! ## Lemmas about splitting and joining -/

theorem splitOnChar_ne_nil (sep : Char) (l : List Char) : splitOnChar sep l ≠ [] := by
  cases l with
  | nil => simp [splitOnChar]
  | cons c cs => simp only [splitOnChar]; split <;> simp

theorem splitOnChar_not_mem {sep : Char} {l : List Char} (h : sep ∉ l) :
    splitOnChar sep l = [l] := by
  induction l with
  | nil => rfl
  | cons c cs ih =>
    simp only [List.mem_cons, not_or] at h
    have hc : ¬(c = sep) := fun hh => h.1 hh.symm
    simp [splitOnChar, ih h.2, if_neg hc]

theorem splitOnChar_append {sep : Char} {l t : List Char} (h : sep ∉ l) :
    splitOnChar sep (l ++ sep :: t) = l :: splitOnChar sep t := by
  induction l with
  | nil => simp [splitOnChar]
  | cons c cs ih =>
    simp only [List.mem_cons, not_or] at h
    have hc : ¬(c = sep) := fun hh => h.1 hh.symm
    simp [splitOnChar, ih h.2, if_neg hc]

theorem joinNl_cons_cons (x y : List Char) (ys : List (List Char)) :
    joinNl (x :: y :: ys) = x ++ '\n' :: joinNl (y :: ys) := rfl

theorem splitNl_joinNl {xs : List (List Char)} (hne : xs ≠ [])
    (h : ∀ x ∈ xs, '\n' ∉ x) : splitNl (joinNl xs) = xs := by
  induction xs with
  | nil => exact absurd rfl hne
  | cons x ys ih =>
    cases ys with
    | nil => exact splitOnChar_not_mem (h x (by simp))
    | cons y zs =>
      rw [joinNl_cons_cons]
      rw [show splitNl (x ++ '\n' :: joinNl (y :: zs))
            = x :: splitNl (joinNl (y :: zs)) from splitOnChar_append (h x (by simp))]
      rw [ih (by simp) fun z hz => h z (List.mem_cons_of_mem x hz)]

theorem splitNl_mkContent {L : List (List Char)} {frag : List Char}
    (hL : ∀ l ∈ L, '\n' ∉ l) (hf : '\n' ∉ frag) :
    splitNl (mkContent L frag) = L ++ [frag] := by
  induction L with
  | nil =>
    simp only [mkContent, List.map_nil, List.flatten_nil, List.nil_append]
    exact splitOnChar_not_mem hf
  | cons l L' ih =>
    have h1 : mkContent (l :: L') frag = l ++ '\n' :: mkContent L' frag := by
      simp [mkContent, List.append_assoc]
    rw [h1, show splitNl (l ++ '\n' :: mkContent L' frag)
          = l :: splitNl (mkContent L' frag) from splitOnChar_append (hL l (by simp))]
    rw [ih fun z hz => hL z (List.mem_cons_of_mem l hz)]
    rfl

theorem filterMap_ite {α β : Type} (p : α → Bool) (f : α → β) (l : List α) :
    (l.filterMap fun x => if p x then some (f x) else none) = (l.filter p).map f := by
  induction l with
  | nil => rfl
  | cons a l ih =>
    cases hp : p a <;> simp [List.filterMap_cons, List.filter_cons, hp, ih]

/-! ## Lemmas about the decimal printer and parser -/

theorem natDigitsF_congr : ∀ f1 f2 n, n < f1 → n < f2 →
    natDigitsF f1 n = natDigitsF f2 n := by
  intro f1
  induction f1 with
  | zero => intro f2 n h1 _; omega
  | succ k ih =>
    intro f2 n h1 h2
    cases f2 with
    | zero => omega
    | succ j =>
      simp only [natDigitsF]
      by_cases hn : n < 10
      · simp [hn]
      · simp only [if_neg hn]
        rw [ih j (n / 10) (by omega) (by omega)]

theorem natDigits_eq (n : ℕ) :
    natDigits n =
      if n < 10 then [digitChar n]
      else natDigits (n / 10) ++ [digitChar (n % 10)] := by
  unfold natDigits
  show natDigitsF (n + 1) n = _
  by_cases hn : n < 10
  · simp [natDigitsF, hn]
  · simp only [natDigitsF, if_neg hn]
    rw [natDigitsF_congr n (n / 10 + 1) (n / 10) (by omega) (by omega)]
    rfl

theorem digitChar_isDigit {d : ℕ} (h : d < 10) : (digitChar d).isDigit = true := by
  interval_cases d <;> decide

theorem digitVal?_digitChar {d : ℕ} (h : d < 10) : digitVal? (digitChar d) = some d := by
  interval_cases d <;> decide

theorem natDigitsF_isDigit : ∀ fuel n c, c ∈ natDigitsF fuel n → c.isDigit = true := by
  intro fuel
  induction fuel with
  | zero => intro n c h; simp [natDigitsF] at h
  | succ k ih =>
    intro n c h
    simp only [natDigitsF] at h
    by_cases hn : n < 10
    · rw [if_pos hn] at h
      simp only [List.mem_singleton] at h
      subst h
      exact digitChar_isDigit hn
    · rw [if_neg hn] at h
      rcases List.mem_append.mp h with h1 | h2
      · exact ih _ _ h1
      · simp only [List.mem_singleton] at h2
        subst h2
        exact digitChar_isDigit (Nat.mod_lt _ (by omega))

theorem natDigits_isDigit {n : ℕ} {c : Char} (h : c ∈ natDigits n) : c.isDigit = true :=
  natDigitsF_isDigit _ _ _ h

theorem natDigits_ne_nil (n : ℕ) : natDigits n ≠ [] := by
  rw [natDigits_eq]
  split <;> simp

theorem digitsValFrom_append (acc : ℕ) (xs ys : List Char) :
    digitsValFrom acc (xs ++ ys) =
      match digitsValFrom acc xs with
      | none => none
      | some a => digitsValFrom a ys := by
  induction xs generalizing acc with
  | nil => rfl
  | cons c rest ih =>
    simp only [List.cons_append, digitsValFrom]
    cases digitVal? c with
    | none => rfl
    | some d => exact ih _

theorem digitsValFrom_natDigits (n : ℕ) : ∀ acc : ℕ,
    ∃ p : ℕ, digitsValFrom acc (natDigits n) = some (acc * p + n) := by
  induction n using Nat.strong_induction_on with
  | _ n ih =>
    intro acc
    rw [natDigits_eq]
    by_cases hn : n < 10
    · rw [if_pos hn]
      refine ⟨10, ?_⟩
      simp [digitsValFrom, digitVal?_digitChar hn]
    · rw [if_neg hn]
      obtain ⟨p, hp⟩ := ih (n / 10) (by omega) acc
      refine ⟨p * 10, ?_⟩
      rw [digitsValFrom_append, hp]
      simp only [digitsValFrom, digitVal?_digitChar (show n % 10 < 10 by omega)]
      refine congrArg some ?_
      have hmod : n / 10 * 10 + n % 10 = n := by omega
      calc (acc * p + n / 10) * 10 + n % 10
          = acc * (p * 10) + (n / 10 * 10 + n % 10) := by ring
        _ = acc * (p * 10) + n := by rw [hmod]

theorem digitsVal_natDigits (n : ℕ) : digitsVal (natDigits n) = some n := by
  obtain ⟨p, hp⟩ := digitsValFrom_natDigits n 0
  rw [digitsVal, if_neg (by simp [List.isEmpty_iff, natDigits_ne_nil n]), hp]
  simp

theorem atoi_natDigits (n : ℕ) : atoi (natDigits n) = some (n : Int) := by
  cases hd : natDigits n with
  | nil => exact absurd hd (natDigits_ne_nil n)
  | cons c rest =>
    have hdig : c.isDigit = true := natDigits_isDigit (by rw [hd]; simp)
    have hplus : ¬(c = '+') := fun h => by
      rw [h] at hdig; exact absurd hdig (by decide)
    have hminus : ¬(c = '-') := fun h => by
      rw [h] at hdig; exact absurd hdig (by decide)
    simp only [atoi, if_neg hplus, if_neg hminus]
    rw [← hd, digitsVal_natDigits]
    rfl

theorem atoi_intChars (n : Int) : atoi (intChars n) = some n := by
  unfold intChars
  by_cases h : n < 0
  · rw [if_pos h]
    simp only [atoi, if_neg (show ¬('-' = '+') by decide), if_pos rfl]
    rw [digitsVal_natDigits]
    refine Eq.trans ?_ (congrArg some (show -(n.natAbs : Int) = n by omega))
    rfl
  · rw [if_neg h]
    rw [atoi_natDigits]
    refine congrArg some ?_
    omega

/-! ## The serialized anchor record reads back as the value written -/

theorem intChars_mem {n : Int} {c : Char} (h : c ∈ intChars n) :
    c.isDigit = true ∨ c = '-' := by
  unfold intChars at h
  split at h
  · rcases List.mem_cons.mp h with h1 | h2
    · exact Or.inr h1
    · exact Or.inl (natDigits_isDigit h2)
  · exact Or.inl (natDigits_isDigit h)

theorem intChars_ne_nil (n : Int) : intChars n ≠ [] := by
  unfold intChars
  split
  · simp
  · exact natDigits_ne_nil _

theorem nl_not_mem_intChars (n : Int) : '\n' ∉ intChars n := by
  intro h
  rcases intChars_mem h with h1 | h1
  · exact absurd h1 (by decide)
  · exact absurd h1 (by decide)

theorem colon_not_mem_intChars (n : Int) : ':' ∉ intChars n := by
  intro h
  rcases intChars_mem h with h1 | h1
  · exact absurd h1 (by decide)
  · exact absurd h1 (by decide)

theorem getLast?_field_ne_cr (n : Int) :
    ("last:".toList ++ intChars n).getLast? ≠ some '\r' := by
  rw [List.getLast?_append, List.getLast?_eq_getLast _ (intChars_ne_nil n)]
  intro h
  have h2 : (intChars n).getLast (intChars_ne_nil n) = '\r' := Option.some.inj h
  have hm := List.getLast_mem (intChars_ne_nil n)
  rw [h2] at hm
  rcases intChars_mem hm with h1 | h1
  · exact absurd h1 (by decide)
  · exact absurd h1 (by decide)

theorem scanTokens_serializeAnchor (n : Int) :
    scanTokens (serializeAnchor n) = ["last:".toList ++ intChars n] := by
  have hl : '\n' ∉ "last:".toList ++ intChars n := by
    rw [List.mem_append]
    rintro (h | h)
    · exact absurd h (by decide)
    · exact nl_not_mem_intChars n h
  have hser : serializeAnchor n = ("last:".toList ++ intChars n) ++ '\n' :: [] := by
    unfold serializeAnchor
    rw [List.append_assoc]
  have hsplit : splitNl (serializeAnchor n) = ["last:".toList ++ intChars n, []] := by
    rw [hser]
    exact splitOnChar_append hl
  simp only [scanTokens]
  rw [hsplit]
  have hdcr : dropCR ("last:".toList ++ intChars n) = "last:".toList ++ intChars n := by
    unfold dropCR
    rw [if_neg (getLast?_field_ne_cr n)]
  show [dropCR ("last:".toList ++ intChars n)] = ["last:".toList ++ intChars n]
  rw [hdcr]

theorem extract_serialized (n : Int) :
    extract ("last:".toList ++ intChars n) = .ok n := by
  have h1 : "last:".toList ++ intChars n = "last".toList ++ ':' :: intChars n := rfl
  have hsplit : splitOnChar ':' ("last:".toList ++ intChars n)
      = ["last".toList, intChars n] := by
    rw [h1, splitOnChar_append (by decide)]
    rw [splitOnChar_not_mem (colon_not_mem_intChars n)]
  simp only [extract]
  rw [hsplit, if_neg (by simp)]
  show (match atoi (intChars n) with
        | none => ExtractRes.failed
        | some a => ExtractRes.ok a) = ExtractRes.ok n
  rw [atoi_intChars]

theorem getAnchor_serialize (n : Int) :
    getAnchor 0 (.present (serializeAnchor n)) = .ok (.present (serializeAnchor n)) n := by
  have hne : ¬("last:".toList ++ intChars n = []) := by
    simp [intChars_ne_nil n]
  simp only [getAnchor, readAnchorFrom]
  rw [scanTokens_serializeAnchor]
  show (if ("last:".toList ++ intChars n) = [] then
          LoadRes.ok (.present (serializeAnchor n)) 0
        else
          match extract ("last:".toList ++ intChars n) with
          | .panicked => LoadRes.panicked
          | .failed => LoadRes.failed
          | .ok a => LoadRes.ok (.present (serializeAnchor n)) a) = _
  rw [if_neg hne, extract_serialized]

theorem anchorValue_serialize (n : Int) :
    anchorValue (.present (serializeAnchor n)) = some n := by
  unfold anchorValue
  rw [getAnchor_serialize]

/-! ## Behavior of anchor loading and the scan pipeline -/

theorem getAnchor_ok {af af2 : FileSt} {a : Int} (h : getAnchor 0 af = .ok af2 a) :
    anchorValue af = some a ∧ anchorValue af2 = some a := by
  have h1 : anchorValue af = some a := by unfold anchorValue; rw [h]
  refine ⟨h1, ?_⟩
  cases af with
  | denied => simp [getAnchor] at h
  | absent =>
    have hcomp : getAnchor 0 .absent = .ok (.present []) 0 := by decide
    rw [hcomp] at h
    injection h with h2 h3
    subst h2
    subst h3
    decide
  | present c =>
    have haf : af2 = .present c := by
      simp only [getAnchor, readAnchorFrom] at h
      split at h
      · injection h with h2 h3
        exact h2.symm
      · split at h
        · cases h
        · cases h
        · injection h with h2 h3
          exact h2.symm
    subst haf
    exact h1

/-- C8: for every sequence of scans on one source, the anchor is
monotonically non-decreasing: whenever one `scan` call succeeds, the
anchor value a load of the resulting record state returns is at least
the anchor value the record held before the call, so no scan ever stores
an anchor smaller than the previously stored one. -/
theorem c8_anchor_monotone (af lf : FileSt) (svc now : List Char)
    (af2 : FileSt) (iss : List Issue) (h : scan af lf svc now = .ok af2 iss) :
    ∃ a a2 : Int, anchorValue af = some a ∧ anchorValue af2 = some a2 ∧ a ≤ a2 := by
  unfold scan at h
  cases hg : getAnchor 0 af with
  | failed => simp only [hg] at h; cases h
  | panicked => simp only [hg] at h; cases h
  | ok af1 a =>
    simp only [hg] at h
    obtain ⟨ha, ha1⟩ := getAnchor_ok hg
    cases hs : scanFile a lf svc now with
    | failed => simp only [hs] at h; cases h
    | panicked => simp only [hs] at h; cases h
    | ok newA issues =>
      simp only [hs] at h
      by_cases hlt : a < newA
      · rw [if_pos hlt] at h
        cases hset : setAnchor af1 newA with
        | none => rw [hset] at h; cases h
        | some af3 =>
          rw [hset] at h
          injection h with h2 h3
          have haf3 : af3 = .present (serializeAnchor newA) := by
            cases af1 with
            | denied => simp [setAnchor] at hset
            | absent => injection hset with h4; exact h4.symm
            | present c => injection hset with h4; exact h4.symm
          refine ⟨a, newA, ha, ?_, le_of_lt hlt⟩
          rw [← h2, haf3]
          exact anchorValue_serialize newA
      · rw [if_neg hlt] at h
        injection h with h2 h3
        exact ⟨a, a, ha, by rw [← h2]; exact ha1, le_refl a⟩

theorem map_dropCR_id {ls : List (List Char)}
    (h : ∀ l ∈ ls, l.getLast? ≠ some '\r') : ls.map dropCR = ls := by
  induction ls with
  | nil => rfl
  | cons x xs ih =>
    have hx : dropCR x = x := by
      unfold dropCR
      rw [if_neg (h x (by simp))]
    simp only [List.map_cons, hx, ih fun l hl => h l (List.mem_cons_of_mem x hl)]

/-! ## Claim theorems -/

/-- C1 (amended): when the file content splits into fewer newline-delimited
segments than the anchor, `scanFile` panics on the out-of-range slice
`logs[anchor:]` instead of returning; in the boundary case where the
anchor equals the number of split segments (one more than the number of
complete lines), the scan returns zero findings and the anchor
unchanged. -/
theorem c1_truncation (dat : List Char) (a : ℕ) (svc now : List Char) :
    ((splitNl dat).length < a → scanFile a (.present dat) svc now = .panicked) ∧
    (a = (splitNl dat).length → scanFile a (.present dat) svc now = .ok a []) := by
  constructor
  · intro hlt
    simp only [scanFile]
    rw [if_pos (Or.inr (by exact_mod_cast hlt))]
  · intro heq
    subst heq
    simp only [scanFile]
    rw [if_neg (by omega)]
    rw [Int.toNat_natCast, List.drop_length]
    rw [show scanTokens (joinNl []) = [] from rfl]
    simp

/-- C1 counterexample: a file whose content `"a\n"` splits into 2 segments,
scanned with anchor 3 (so the file has fewer newline-delimited lines than
the anchor), does not return zero findings with the anchor unchanged — it
panics on the out-of-range slice. -/
theorem c1_counterexample :
    (splitNl "a\n".toList).length < 3 ∧
    scanFile 3 (.present "a\n".toList) "apple".toList "t".toList ≠ .ok 3 [] ∧
    scanFile 3 (.present "a\n".toList) "apple".toList "t".toList = .panicked := by
  decide

/-- C1 witness: both parts of the amended statement at concrete inputs. -/
theorem c1_witness :
    scanFile 3 (.present "a\n".toList) "apple".toList "t".toList = .panicked ∧
    scanFile 2 (.present "a\n".toList) "apple".toList "t".toList = .ok 2 [] :=
  ⟨(c1_truncation "a\n".toList 3 "apple".toList "t".toList).1 (by decide),
   (c1_truncation "a\n".toList 2 "apple".toList "t".toList).2 (by decide)⟩

/-- C10: if the anchor record file exists but its first line is empty
(including a zero-byte file), the load succeeds and returns anchor 0
rather than failing with a parse or storage error. -/
theorem c10_empty_first_line (c : List Char)
    (h : (scanTokens c).headD [] = []) :
    getAnchor 0 (.present c) = .ok (.present c) 0 := by
  simp only [getAnchor, readAnchorFrom]
  rw [if_pos h]

/-- C10 witness: the zero-byte anchor file loads as anchor 0. -/
theorem c10_witness : getAnchor 0 (.present []) = .ok (.present []) 0 :=
  c10_empty_first_line [] (by decide)

/-- C5: a source whose scan pipeline fails with an error return (anchor
storage unreadable, log file unavailable, or a scan error) leaves the
anchor value its record reads back as unchanged, and the cycle still
processes all remaining sources — the error is logged but neither kills
the process nor blocks the other sources. -/
theorem c5_failure_isolated (s : Src) (rest : List Src) (af2 : FileSt)
    (h : executeOne s = .failed af2) :
    runCycle (s :: rest) = .failed af2 :: runCycle rest ∧
      anchorValue af2 = anchorValue s.af := by
  constructor
  · simp only [runCycle]
    rw [h]
  · unfold executeOne scan at h
    cases hg : getAnchor 0 s.af with
    | failed =>
      simp only [hg] at h
      injection h with h2
      rw [← h2]
    | panicked => simp only [hg] at h; cases h
    | ok af1 a =>
      obtain ⟨ha, ha1⟩ := getAnchor_ok hg
      simp only [hg] at h
      cases hs : scanFile a s.lf s.sname s.snow with
      | failed =>
        simp only [hs] at h
        injection h with h2
        rw [← h2, ha1, ha]
      | panicked => simp only [hs] at h; cases h
      | ok newA issues =>
        simp only [hs] at h
        by_cases hlt : a < newA
        · rw [if_pos hlt] at h
          cases hset : setAnchor af1 newA with
          | none =>
            rw [hset] at h
            injection h with h2
            rw [← h2, ha1, ha]
          | some af3 => rw [hset] at h; cases h
        · rw [if_neg hlt] at h; cases h

/-- C5 witness: a source with no anchor record and an unreadable log file
fails its scan but does not block the next source, and its record still
reads back as anchor 0. -/
theorem c5_witness :
    runCycle [⟨.absent, .denied, "apple".toList, "t".toList⟩,
              ⟨.absent, .present "x\n".toList, "pear".toList, "t".toList⟩]
        = .failed (.present []) ::
            runCycle [⟨.absent, .present "x\n".toList, "pear".toList, "t".toList⟩] ∧
      anchorValue (.present []) = anchorValue FileSt.absent :=
  c5_failure_isolated ⟨.absent, .denied, "apple".toList, "t".toList⟩
    [⟨.absent, .present "x\n".toList, "pear".toList, "t".toList⟩]
    (.present []) (by decide)

/-- C8 witness: a successful scan of a fresh source (anchor record absent,
log `"x\nerror q\n"`) stores anchor 2, and both record states read back
with the new value at least the old. -/
theorem c8_witness :
    ∃ a a2 : Int, anchorValue FileSt.absent = some a ∧
      anchorValue (.present (serializeAnchor 2)) = some a2 ∧ a ≤ a2 :=
  c8_anchor_monotone .absent (.present "x\nerror q\n".toList)
    "apple".toList "t".toList (.present (serializeAnchor 2))
    [⟨title "apple".toList "t".toList, "error q".toList⟩] (by decide)

/-- C6: with no anchor record present, `getAnchor` creates the record and
returns anchor 0, but the created record is EMPTY — the initializing
`"last:0"` write sits in a `bufio.Writer` that is never flushed — so the
persisted record does not contain the serialized value 0. -/
theorem c6_unflushed_record :
    getAnchor 0 .absent = .ok (.present []) 0 ∧
      ([] : List Char) ≠ serializeAnchor 0 := by
  decide

/-- C7 counterexample: after the first scan of the three-line log (no line
matching the keyword), the stored anchor is 3, not 0 — the anchor does not
"stay 0", because every consumed line advances it. -/
theorem c7_counterexample :
    scan .absent (.present "a\nb\nc\n".toList) "apple".toList "t".toList
        = .ok (.present (serializeAnchor 3)) [] ∧
      anchorValue (.present (serializeAnchor 3)) ≠ some 0 := by
  decide

/-- C7 (amended): the first scan of the three clean lines yields zero
findings and advances the anchor 0 → 3; after appending `"d"` and
`"error occurred"`, the next scan advances the anchor 3 → 5 and yields
exactly one finding whose body is `"error occurred"`. -/
theorem c7_scenario :
    scan .absent (.present "a\nb\nc\n".toList) "apple".toList "t".toList
        = .ok (.present (serializeAnchor 3)) [] ∧
      anchorValue (.present (serializeAnchor 3)) = some 3 ∧
      scan (.present (serializeAnchor 3))
          (.present "a\nb\nc\nd\nerror occurred\n".toList)
          "apple".toList "t".toList
        = .ok (.present (serializeAnchor 5))
            [⟨title "apple".toList "t".toList, "error occurred".toList⟩] ∧
      anchorValue (.present (serializeAnchor 5)) = some 5 := by
  decide

/-- C3 counterexample: `setAnchor` is not crash-atomic: storing value 5
over a record holding value 3, the empty truncated file is an observable
crash state that is neither the old record nor the new one. -/
theorem c3_counterexample :
    ¬ ∀ st ∈ setAnchorCrashStates (.present (serializeAnchor 3)) 5,
        st = .present (serializeAnchor 3) ∨ st = .present (serializeAnchor 5) := by
  decide

/-- C3 (amended): `setAnchor` truncates the record in place and rewrites
it, so a crash exposes the old record, the new record, or an empty
record; the empty record is not a corrupt partial value in the sense that
a subsequent load parses it as anchor 0 instead of failing. -/
theorem c3_crash_states (old : FileSt) (n : Int) (st : FileSt)
    (hmem : st ∈ setAnchorCrashStates old n) :
    st = old ∨ st = .present (serializeAnchor n) ∨
      (st = .present [] ∧ getAnchor 0 (.present []) = .ok (.present []) 0) := by
  simp only [setAnchorCrashStates, List.mem_cons, List.mem_singleton] at hmem
  rcases hmem with h | h | h
  · exact Or.inl h
  · exact Or.inr (Or.inr ⟨h, by decide⟩)
  · rcases h with h | h
    · exact Or.inr (Or.inl h)
    · simp at h

/-- C3 witness: the amended statement applied at the concrete truncated
crash state from the counterexample. -/
theorem c3_witness :
    FileSt.present [] = .present (serializeAnchor 3) ∨
      FileSt.present [] = .present (serializeAnchor 5) ∨
      (FileSt.present [] = .present [] ∧
        getAnchor 0 (.present []) = .ok (.present []) 0) :=
  c3_crash_states (.present (serializeAnchor 3)) 5 (.present []) (by decide)

/-- C2 (amended): for a log of newline-terminated lines `L` with anchor
`a ≤ L.length`, one scan yields exactly the keyword-matching lines of
`L` from the anchor on, in file order, and advances the anchor to
`L.length`; but a nonempty trailing unterminated fragment is NOT
excluded: it is scanned like a complete line (and can itself become a
finding) and is counted into the new anchor, which then becomes
`L.length + 1`. -/
theorem c2_scan_delta (L : List (List Char)) (frag : List Char) (a : ℕ)
    (svc now : List Char)
    (hL : ∀ l ∈ L, '\n' ∉ l) (hcr : ∀ l ∈ L, l.getLast? ≠ some '\r')
    (hf : '\n' ∉ frag) (hfcr : frag.getLast? ≠ some '\r')
    (ha : a ≤ L.length) :
    scanFile a (.present (mkContent L [])) svc now
        = .ok L.length (((L.drop a).filter fun l => containsSub errKw l).map
            fun b => ⟨title svc now, b⟩) ∧
    (frag ≠ [] →
      scanFile a (.present (mkContent L frag)) svc now
        = .ok (L.length + 1)
            ((((L.drop a) ++ [frag]).filter fun l => containsSub errKw l).map
              fun b => ⟨title svc now, b⟩)) := by
  constructor
  · have hsplit : splitNl (mkContent L []) = L ++ [[]] :=
      splitNl_mkContent hL (by simp)
    simp only [scanFile]
    rw [hsplit]
    rw [if_neg (by
      simp only [List.length_append, List.length_singleton]
      push_cast
      omega)]
    rw [Int.toNat_natCast, List.drop_append_of_le_length ha]
    have hsj : splitNl (joinNl (L.drop a ++ [[]])) = L.drop a ++ [[]] :=
      splitNl_joinNl (by simp) (by
        intro x hx
        rcases List.mem_append.mp hx with h1 | h1
        · exact hL x (List.mem_of_mem_drop h1)
        · simp only [List.mem_singleton] at h1
          subst h1
          simp)
    have htoks : scanTokens (joinNl (L.drop a ++ [[]])) = L.drop a := by
      simp only [scanTokens]
      rw [hsj, if_pos (List.getLast?_concat _), List.dropLast_concat]
      exact map_dropCR_id fun l hl => hcr l (List.mem_of_mem_drop hl)
    rw [htoks, filterMap_ite, List.length_drop]
    congr 1
    omega
  · intro hfrag
    have hsplit : splitNl (mkContent L frag) = L ++ [frag] :=
      splitNl_mkContent hL hf
    simp only [scanFile]
    rw [hsplit]
    rw [if_neg (by
      simp only [List.length_append, List.length_singleton]
      push_cast
      omega)]
    rw [Int.toNat_natCast, List.drop_append_of_le_length ha]
    have hsj : splitNl (joinNl (L.drop a ++ [frag])) = L.drop a ++ [frag] :=
      splitNl_joinNl (by simp) (by
        intro x hx
        rcases List.mem_append.mp hx with h1 | h1
        · exact hL x (List.mem_of_mem_drop h1)
        · simp only [List.mem_singleton] at h1
          subst h1
          exact hf)
    have htoks : scanTokens (joinNl (L.drop a ++ [frag])) = L.drop a ++ [frag] := by
      simp only [scanTokens]
      rw [hsj, List.getLast?_concat, if_neg (by simp [hfrag])]
      refine map_dropCR_id ?_
      intro l hl
      rcases List.mem_append.mp hl with h1 | h1
      · exact hcr l (List.mem_of_mem_drop h1)
      · simp only [List.mem_singleton] at h1
        subst h1
        exact hfcr
    rw [htoks, filterMap_ite]
    congr 1
    simp only [List.length_append, List.length_singleton, List.length_drop]
    push_cast
    omega

/-- C2 counterexample: a log consisting only of the unterminated fragment
`"error x"` (no newline at all), scanned from anchor 0: the claim says the
fragment is excluded and nothing is counted, but the code emits a finding
for the fragment and advances the anchor to 1. -/
theorem c2_counterexample :
    scanFile 0 (.present "error x".toList) "apple".toList "t".toList
        = .ok 1 [⟨title "apple".toList "t".toList, "error x".toList⟩] ∧
      scanFile 0 (.present "error x".toList) "apple".toList "t".toList
        ≠ .ok 0 [] := by
  decide

/-- C2 witness: the amended statement at a one-line log `"x\n"` with
fragment `"error y"`, anchor 0. -/
theorem c2_witness :
    scanFile 0 (.present (mkContent ["x".toList] [])) "apple".toList "t".toList
        = .ok 1 [] ∧
    scanFile 0 (.present (mkContent ["x".toList] "error y".toList))
        "apple".toList "t".toList
        = .ok 2 [⟨title "apple".toList "t".toList, "error y".toList⟩] := by
  have h := c2_scan_delta ["x".toList] "error y".toList 0 "apple".toList "t".toList
    (by decide) (by decide) (by decide) (by decide) (by decide)
  exact ⟨h.1.trans (by decide), (h.2 (by decide)).trans (by decide)⟩

theorem sbs_of_no_store {evs : List Ev} (h : ∀ n : Int, Ev.storeEv n ∉ evs) :
    storesBeforeSubmits evs := by
  intro i j n b hi _
  exact absurd (List.get?_mem hi) (h n)

theorem sbs_of_no_submit {evs : List Ev} (h : ∀ b : List Char, Ev.submitEv b ∉ evs) :
    storesBeforeSubmits evs := by
  intro i j n b _ hj
  exact absurd (List.get?_mem hj) (h b)

theorem sbs_store_then_submits (newA : Int) (iss : List Issue) :
    storesBeforeSubmits (Ev.loadEv :: Ev.scanEv :: Ev.storeEv newA ::
      iss.map fun i => Ev.submitEv i.body) := by
  intro i j n b hi hj
  have hj3 : 3 ≤ j := by
    rcases j with _ | _ | _ | j
    · simp only [List.get?_cons_zero, Option.some.injEq] at hj
      cases hj
    · simp only [List.get?_cons_succ, List.get?_cons_zero, Option.some.injEq] at hj
      cases hj
    · simp only [List.get?_cons_succ, List.get?_cons_zero, Option.some.injEq] at hj
      cases hj
    · omega
  have hi2 : i ≤ 2 := by
    by_contra hgt
    push_neg at hgt
    obtain ⟨k, hk⟩ : ∃ k, i = k + 3 := ⟨i - 3, by omega⟩
    subst hk
    simp only [List.get?_cons_succ] at hi
    have hmem := List.get?_mem hi
    simp only [List.mem_map] at hmem
    obtain ⟨x, _, hx⟩ := hmem
    cases hx
  omega

/-- C4 (amended): in every `Execute` call the pipeline runs anchor load,
then scan, then the anchor store — attempted exactly when the scan
succeeded with a new anchor strictly greater than the loaded one — and
only after the store does it submit the findings to the issue tracker;
every store event precedes every submission event, not the other way
round. -/
theorem c4_store_before_submit (af lf : FileSt) (svc now : List Char) :
    storesBeforeSubmits (executeEvents af lf svc now) ∧
      ((∃ n : Int, Ev.storeEv n ∈ executeEvents af lf svc now) ↔
        ∃ af1 : FileSt, ∃ a newA : Int, ∃ iss : List Issue,
          getAnchor 0 af = .ok af1 a ∧ scanFile a lf svc now = .ok newA iss ∧
            a < newA) := by
  cases hg : getAnchor 0 af with
  | failed =>
    simp only [executeEvents, hg]
    refine ⟨sbs_of_no_store (by intro n hmem; simp at hmem), ?_, ?_⟩
    · rintro ⟨n, hmem⟩
      simp at hmem
    · rintro ⟨af1, a, newA, iss, hga, -, -⟩
      cases hga
  | panicked =>
    simp only [executeEvents, hg]
    refine ⟨sbs_of_no_store (by intro n hmem; simp at hmem), ?_, ?_⟩
    · rintro ⟨n, hmem⟩
      simp at hmem
    · rintro ⟨af1, a, newA, iss, hga, -, -⟩
      cases hga
  | ok af1 a =>
    simp only [executeEvents, hg]
    cases hs : scanFile a lf svc now with
    | failed =>
      simp only [hs]
      refine ⟨sbs_of_no_store (by intro n hmem; simp at hmem), ?_, ?_⟩
      · rintro ⟨n, hmem⟩
        simp at hmem
      · rintro ⟨af1', a', newA, iss, hga, hsf, -⟩
        injection hga with h1 h2
        subst h2
        rw [hs] at hsf
        cases hsf
    | panicked =>
      simp only [hs]
      refine ⟨sbs_of_no_store (by intro n hmem; simp at hmem), ?_, ?_⟩
      · rintro ⟨n, hmem⟩
        simp at hmem
      · rintro ⟨af1', a', newA, iss, hga, hsf, -⟩
        injection hga with h1 h2
        subst h2
        rw [hs] at hsf
        cases hsf
    | ok newA iss =>
      simp only [hs]
      by_cases hlt : a < newA
      · rw [if_pos hlt]
        cases hset : setAnchor af1 newA with
        | none =>
          refine ⟨sbs_of_no_submit (by intro b hmem; simp at hmem), ?_, ?_⟩
          · intro _
            exact ⟨af1, a, newA, iss, rfl, hs, hlt⟩
          · intro _
            exact ⟨newA, by simp⟩
        | some af3 =>
          refine ⟨sbs_store_then_submits newA iss, ?_, ?_⟩
          · intro _
            exact ⟨af1, a, newA, iss, rfl, hs, hlt⟩
          · intro _
            exact ⟨newA, by simp⟩
      · rw [if_neg hlt]
        refine ⟨sbs_of_no_store ?_, ?_, ?_⟩
        · intro n hmem
          simp only [List.mem_cons, List.mem_map] at hmem
          rcases hmem with h | h | h
          · cases h
          · cases h
          · obtain ⟨x, -, hx⟩ := h
            cases hx
        · rintro ⟨n, hmem⟩
          simp only [List.mem_cons, List.mem_map] at hmem
          rcases hmem with h | h | h
          · cases h
          · cases h
          · obtain ⟨x, -, hx⟩ := h
            cases hx
        · rintro ⟨af1', a', newA', iss', hga, hsf, hlt'⟩
          injection hga with h1 h2
          subst h2
          rw [hs] at hsf
          injection hsf with h3 h4
          subst h3
          exact absurd hlt' hlt

/-- C4 counterexample: with anchor record `"last:0\n"` and log
`"error x\n"`, the `Execute` trace is load, scan, store 1, submit — the
store happens BEFORE the submission, so the claimed
submit-then-store order is violated. -/
theorem c4_counterexample :
    ¬ submitsBeforeStores (executeEvents (.present (serializeAnchor 0))
        (.present "error x\n".toList) "apple".toList "t".toList) := by
  intro h
  have h23 := h 2 3 1 "error x".toList (by decide) (by decide)
  omega

/-- C9: the concurrency bound fails.  With 5 sources and `max_workers = 2`
(pool size `min 5 2 = 2`), a scheduler state with 4 sources being scanned
simultaneously is reachable: the ticker loop spawns 2 fresh workers on
EVERY tick while the workers of earlier ticks never exit, so from the
second tick on, more than `min(sourceCount, max_workers)` scans can run
at once. -/
theorem c9_bound_violated :
    ∃ p : Pool, poolReach 5 2 p ∧ min 5 2 < p.active := by
  refine ⟨⟨4, 0, 4, 4⟩, ?_, by decide⟩
  have s1 : PoolStep 5 2 ⟨0, 0, 0, 0⟩ ⟨2, 0, 5, 0⟩ := PoolStep.tick _ rfl
  have s2 : PoolStep 5 2 ⟨2, 0, 5, 0⟩ ⟨2, 1, 4, 0⟩ := PoolStep.push _ (by decide) (by decide)
  have s3 : PoolStep 5 2 ⟨2, 1, 4, 0⟩ ⟨2, 2, 3, 0⟩ := PoolStep.push _ (by decide) (by decide)
  have s4 : PoolStep 5 2 ⟨2, 2, 3, 0⟩ ⟨2, 1, 3, 1⟩ := PoolStep.take _ (by decide) (by decide)
  have s5 : PoolStep 5 2 ⟨2, 1, 3, 1⟩ ⟨2, 0, 3, 2⟩ := PoolStep.take _ (by decide) (by decide)
  have s6 : PoolStep 5 2 ⟨2, 0, 3, 2⟩ ⟨2, 1, 2, 2⟩ := PoolStep.push _ (by decide) (by decide)
  have s7 : PoolStep 5 2 ⟨2, 1, 2, 2⟩ ⟨2, 2, 1, 2⟩ := PoolStep.push _ (by decide) (by decide)
  have s8 : PoolStep 5 2 ⟨2, 2, 1, 2⟩ ⟨2, 2, 1, 1⟩ := PoolStep.finish _ (by decide)
  have s9 : PoolStep 5 2 ⟨2, 2, 1, 1⟩ ⟨2, 1, 1, 2⟩ := PoolStep.take _ (by decide) (by decide)
  have s10 : PoolStep 5 2 ⟨2, 1, 1, 2⟩ ⟨2, 1, 1, 1⟩ := PoolStep.finish _ (by decide)
  have s11 : PoolStep 5 2 ⟨2, 1, 1, 1⟩ ⟨2, 0, 1, 2⟩ := PoolStep.take _ (by decide) (by decide)
  have s12 : PoolStep 5 2 ⟨2, 0, 1, 2⟩ ⟨2, 1, 0, 2⟩ := PoolStep.push _ (by decide) (by decide)
  have s13 : PoolStep 5 2 ⟨2, 1, 0, 2⟩ ⟨4, 1, 5, 2⟩ := PoolStep.tick _ rfl
  have s14 : PoolStep 5 2 ⟨4, 1, 5, 2⟩ ⟨4, 0, 5, 3⟩ := PoolStep.take _ (by decide) (by decide)
  have s15 : PoolStep 5 2 ⟨4, 0, 5, 3⟩ ⟨4, 1, 4, 3⟩ := PoolStep.push _ (by decide) (by decide)
  have s16 : PoolStep 5 2 ⟨4, 1, 4, 3⟩ ⟨4, 0, 4, 4⟩ := PoolStep.take _ (by decide) (by decide)
  exact .head s1 (.head s2 (.head s3 (.head s4 (.head s5 (.head s6 (.head s7
    (.head s8 (.head s9 (.head s10 (.head s11 (.head s12 (.head s13 (.head s14
      (.head s15 (.head s16 .refl)))))))))))))))
